import Mathlib

/-!
Verification development for the numerical core of the `ep-stan` repository
(`dep/util.py`): the moment/natural parameter conversion routine
`invert_normal_params`, the control-variate moment estimator `cv_moments`
and its helper `_cv_estim`.

The Python arrays of double-precision floats are embedded as matrices and
vectors over `ℚ` (exact arithmetic); external LAPACK/scipy routines
(`cho_factor`, `cho_solve`, `dpotri`, `linalg.solve`) are modelled by their
mathematical contracts, with the success condition of the Cholesky
factorization `dpotrf` rendered by the executable leading-principal-minor
test `cholOkB` (for a symmetric matrix, `dpotrf` succeeds exactly when all
leading principal minors are positive).  Transcendental scalar routines
(`exp`, `log`) from libm are kept as explicit parameters of the embedding.
-/

namespace EpStan

open Matrix

/-! ## Definitions: the embedded data model and operations -/

/-- Square rational matrix of size `d`, the embedding of a `d x d` float array. -/
abbrev Mat (d : ℕ) := Matrix (Fin d) (Fin d) ℚ

/-- Rational vector of length `d`, the embedding of a 1-D float array. -/
abbrev Vc (d : ℕ) := Fin d → ℚ

/-- Rectangular `n x d` sample array (`n` draws of dimension `d`). -/
abbrev Rect (n d : ℕ) := Fin n → Fin d → ℚ

/-- Executable determinant by Laplace expansion along the first row;
agrees with `Matrix.det` (`qdet_eq_det`). -/
def qdet : {k : ℕ} → Matrix (Fin k) (Fin k) ℚ → ℚ
  | 0, _ => 1
  | k + 1, A =>
      ∑ j : Fin (k + 1), (-1) ^ (j : ℕ) * A 0 j * qdet (A.submatrix Fin.succ j.succAbove)

/-- The symmetric matrix that the LAPACK routines `dpotrf`/`dpotri` operate on:
they read only the upper triangle of their argument, so the matrix actually
factorized is the one whose lower triangle mirrors the upper. -/
def symU {d : ℕ} (A : Mat d) : Mat d :=
  Matrix.of fun i j => if i ≤ j then A i j else A j i

/-- Modelled from the spec: the Cython helper `copy_triu_to_tril` (file
`dep/cython_util.pyx`, not part of the sources at hand) copies the upper
triangle of a square matrix into its lower triangle in place (spec 4.1
step (3): "explicitly mirror it into the lower triangle before returning"). -/
def copy_triu_to_tril {d : ℕ} (A : Mat d) : Mat d :=
  Matrix.of fun i j => if i ≤ j then A i j else A j i

/-- Leading principal submatrix of size `k+1`. -/
def leadSub {d : ℕ} (A : Mat d) (k : Fin d) : Matrix (Fin (k + 1)) (Fin (k + 1)) ℚ :=
  A.submatrix (Fin.castLE k.isLt) (Fin.castLE k.isLt)

/-- Success condition of `scipy.linalg.cho_factor` (LAPACK `dpotrf`) on `A`:
all leading principal minors of the symmetric matrix read from the upper
triangle of `A` are positive.  `dpotrf` fails with a "not positive definite"
error exactly otherwise. -/
def cholOkB {d : ℕ} (A : Mat d) : Bool :=
  (List.finRange d).all fun k => decide (0 < qdet (leadSub (symU A) k))

/-- Errors surfaced by the embedded numerical routines. -/
inductive NpErr where
  /-- `scipy.linalg.LinAlgError`: matrix not positive definite (from
  `cho_factor` / `dpotri`). -/
  | notPosDef
  /-- `scipy.linalg.LinAlgError`: singular system in `linalg.solve`. -/
  | singular
  /-- Python `NameError`: an unbound name was evaluated. -/
  | nameError
deriving DecidableEq, Repr

/-- Result of a fallible call: a value, or a raised error that propagates. -/
inductive Res (α : Type) where
  | ok (val : α)
  | err (e : NpErr)
deriving DecidableEq

/-- Output placement policy of `invert_normal_params` for each of the two
outputs (source lines 68-73 and 79-87): allocate a new array (`None`),
overwrite the input array (`'in_place'`), or write into a caller buffer. -/
inductive OutMode where
  | alloc
  | inPlace
  | buffer
deriving DecidableEq

/-- Return record of `invert_normal_params`: the two outputs together with
the final contents of the caller's argument arrays `A` and `b` (tracking the
in-place overwriting that the output modes select). -/
structure InvOut (d : ℕ) where
  out_A : Mat d
  out_b : Option (Vc d)
  A_final : Mat d
  b_final : Option (Vc d)

/-- Mathematical contract of `dpotri` applied to the Cholesky factor of
`symU A`: the inverse of the factorized symmetric matrix, computed here
executably from the adjugate.  Agrees with Mathlib's matrix inverse
(`qInv_eq_inv`). -/
def qInv {d : ℕ} (A : Mat d) : Mat d := (qdet A)⁻¹ • A.adjugate

/-- Embedding of `invert_normal_params` (source lines 30-104, with
`cho_form=False`).  Steps: `cho_factor` on (the symmetric matrix read from)
`A`, which raises "not positive definite" iff some leading principal minor is
not positive; `cho_solve` turning `b` into `A⁻¹ b`; `dpotri` writing the
inverse into the upper triangle (the strict lower triangle still holds the
input's entries); `copy_triu_to_tril` mirroring the upper triangle down.
The layout normalization of source lines 74-78 concerns memory order only and
has no counterpart in this functional model.  `A_final`/`b_final` record what
the caller's arrays hold afterwards: they are overwritten exactly in
`'in_place'` mode, otherwise the routine works on copies. -/
def invert_normal_params {d : ℕ} (A : Mat d) (b : Option (Vc d))
    (oA oB : OutMode) : Res (InvOut d) :=
  if cholOkB A then
    let X := qInv (symU A)
    let outA := copy_triu_to_tril (Matrix.of fun i j => if i ≤ j then X i j else A i j)
    let outb := b.map fun v => X *ᵥ v
    .ok { out_A := outA
          out_b := outb
          A_final := if oA = .inPlace then outA else A
          b_final := if oB = .inPlace then outb else b }
  else .err .notPosDef

/-- Python truthiness of an optional float argument (`if opt[...]:` in the
source): `None` and `0.0` are falsy, every other float is truthy. -/
def truthy : Option ℚ → Bool
  | none => false
  | some q => if q = 0 then false else true

/-- The `opt` dictionary packed by `cv_moments` (source lines 198-202). -/
structure Opt where
  multiple_cv : Bool
  regulate_a : Option ℚ
  max_a : Option ℚ

/-- The regression coefficient `a` as the dynamically typed Python value it
is: a square matrix in multiple-CV mode, a vector in single-CV mode, or the
plain scalar `0` returned by the degeneracy fallback of `cv_moments`. -/
inductive Coef where
  | scalarZero
  | vec (k : ℕ) (v : Fin k → ℚ)
  | mat (k : ℕ) (A : Fin k → Fin k → ℚ)

/-- Machine epsilon of IEEE double precision, `np.finfo(np.float64).eps`. -/
def npEps : ℚ := 1 / 2 ^ 52

/-- Embedding of `_cv_estim` (source lines 107-141), the generic
control-variate regression.  `linalg.solve` is modelled as erroring exactly
on a singular system and otherwise producing `var_h⁻¹ * cov_fh`.  The names
`regulate_a` and `max_a` are unbound inside `_cv_estim` in the source, so
when the corresponding `opt` entry is truthy the line `a *= regulate_a`
(resp. `np.clip(a, -max_a, max_a, out=a)`) evaluates an unbound name and
raises a Python `NameError`.  In the single-CV branch the elementwise
division is taken over `ℚ` (whose convention gives `x / 0 = 0`); the IEEE
behaviour of that division at a zero denominator is analysed separately in
`singleCvA`.  The regulation/clamping/averaging steps after the branch on
`multiple_cv` are textually duplicated into both branches here so that the
coefficient keeps its concrete matrix/vector type. -/
def cv_estim {n k : ℕ} (f hc : Fin n → Fin k → ℚ) (divide_f_hat : Bool)
    (opt : Opt) (ddof_f : ℕ) : Res ((Fin k → ℚ) × Coef) :=
  let mf : Fin k → ℚ := fun j => (∑ i, f i j) / ((n : ℚ) - (ddof_f : ℚ))
  let fc : Fin n → Fin k → ℚ := fun i j => f i j - mf j
  if opt.multiple_cv then
    let var_h : Mat k := Matrix.of fun p q => (∑ i, hc i p * hc i q) * ((n : ℚ) - 1)
    let cov_fh : Mat k := Matrix.of fun p q => (∑ i, hc i p * fc i q) * (n : ℚ)
    if qdet var_h = 0 then .err .singular
    else
      let a : Mat k := qInv var_h * cov_fh
      if truthy opt.regulate_a then .err .nameError
      else if truthy opt.max_a then .err .nameError
      else
        let f_hat : Fin n → Fin k → ℚ := fun i j => ∑ p, hc i p * a p j
        let outv : Fin k → ℚ := fun j =>
          if divide_f_hat then (∑ i, (f i j - f_hat i j)) / ((n : ℚ) - (ddof_f : ℚ))
          else ∑ i, (f i j - f_hat i j)
        .ok (outv, .mat k a)
  else
    let a : Fin k → ℚ := fun j =>
      ((∑ i, fc i j * hc i j) * (n : ℚ)) / ((∑ i, hc i j ^ 2) * ((n : ℚ) - 1))
    if truthy opt.regulate_a then .err .nameError
    else if truthy opt.max_a then .err .nameError
    else
      let f_hat : Fin n → Fin k → ℚ := fun i j => hc i j * a j
      let outv : Fin k → ℚ := fun j =>
        if divide_f_hat then (∑ i, (f i j - f_hat i j)) / ((n : ℚ) - (ddof_f : ℚ))
        else ∑ i, (f i j - f_hat i j)
      .ok (outv, .vec k a)

/-- Embedding of the packed upper-triangle length computation
(source lines 261-265): `d(d+1)/2` via integer shifts, split on parity. -/
def calc_d2 (d : ℕ) : ℕ :=
  if d % 2 = 0 then (d >>> 1) * (d + 1) else ((d + 1) >>> 1) * d

/-- Modelled from the spec: the index pairs `(i, j)` with `i ≤ j < d` of the
packed upper triangle used by the Cython helpers `auto_outer`, `ravel_triu`
and `unravel_triu` (file `dep/cython_util.pyx`, which is not among the
sources at hand); the packed vector stores each upper-triangle entry of a
symmetric matrix exactly once. -/
def triuPairs : ℕ → List (ℕ × ℕ)
  | 0 => []
  | d + 1 => triuPairs d ++ (List.range (d + 1)).map fun i => (i, d)

/-- The index pair packed at position `p` (defaulting to `(0, 0)` out of
range, which `triuPairs_length` shows cannot happen). -/
def triuPair (d : ℕ) (p : Fin (calc_d2 d)) : ℕ × ℕ :=
  (triuPairs d).getD p.val (0, 0)

/-- Modelled from the spec: `ravel_triu` packs the upper triangle (diagonal
included) of a symmetric `d x d` matrix into a vector with `d(d+1)/2`
entries. -/
def ravel_triu {d : ℕ} (A : Mat d) : Fin (calc_d2 d) → ℚ := fun p =>
  let ij := triuPair d p
  if h : ij.1 < d ∧ ij.2 < d then A ⟨ij.1, h.1⟩ ⟨ij.2, h.2⟩ else 0

/-- Modelled from the spec: `unravel_triu` expands a packed upper-triangle
vector back into the full symmetric `d x d` matrix. -/
def unravel_triu {d : ℕ} (v : Fin (calc_d2 d) → ℚ) : Mat d :=
  Matrix.of fun i j =>
    let ij : ℕ × ℕ := (min i.val j.val, max i.val j.val)
    let idx := (triuPairs d).indexOf ij
    if h : idx < calc_d2 d then v ⟨idx, h⟩ else 0

/-- Modelled from the spec: `auto_outer` maps each row `x` of an `n x d`
array to the packed upper triangle of the outer product of `x` with
itself. -/
def auto_outer {n d : ℕ} (X : Rect n d) : Fin n → Fin (calc_d2 d) → ℚ :=
  fun i p =>
    let ij := triuPair d p
    if h : ij.1 < d ∧ ij.2 < d then X i ⟨ij.1, h.1⟩ * X i ⟨ij.2, h.2⟩ else 0

/-- Moment parameters `(S_tilde, m_tilde)` of the tilted distribution
(source lines 215-219): the provided ones, or the pair recomputed from the
natural parameters through `cho_factor` and
`invert_normal_params(..., cho_form=True)` whenever either is missing. -/
def tilde_moments {d : ℕ} (Q_tilde : Mat d) (r_tilde : Vc d)
    (S_tilde : Option (Mat d)) (m_tilde : Option (Vc d)) : Mat d × Vc d :=
  match S_tilde, m_tilde with
  | some S, some m => (S, m)
  | _, _ => (qInv (symU Q_tilde), qInv (symU Q_tilde) *ᵥ r_tilde)

/-- The tilted-normal log-density at each sample (source lines 221-229):
`const - (x - m̃)ᵀ Q̃ (x - m̃) / 2` with
`const = ldet - d/2 * log(2π)`, where `ldet` is the supplied
`ldet_Q_tilde` or else the value `chol_ldet` of
`np.sum(np.log(np.diag(cho_tilde)))` computed by libm. -/
def lp_tilde {n d : ℕ} (chol_ldet log2pi : ℚ) (samp : Rect n d)
    (Q_tilde : Mat d) (mt : Vc d) (ldet_Q_tilde : Option ℚ) : Fin n → ℚ :=
  let const := (match ldet_Q_tilde with | some l => l | none => chol_ldet)
    - 1 / 2 * (d : ℚ) * log2pi
  fun i =>
    const - (∑ j, (∑ l, (samp i l - mt l) * Q_tilde l j) * (samp i j - mt j)) / 2

/-- The per-sample importance ratios `pr = exp(lp_tilde - lp)`
(source lines 231-233); `fexp` embeds the libm `exp` routine. -/
def prVec {n d : ℕ} (fexp : ℚ → ℚ) (chol_ldet log2pi : ℚ) (samp : Rect n d)
    (lp : Fin n → ℚ) (Q_tilde : Mat d) (mt : Vc d) (ldet_Q_tilde : Option ℚ) :
    Fin n → ℚ :=
  fun i => fexp (lp_tilde chol_ldet log2pi samp Q_tilde mt ldet_Q_tilde i - lp i)

/-- Return value of `cv_moments`: the moment estimates and, when `ret_a`
was set, the pair `(a_S, a_m)`. -/
structure CvOut (d : ℕ) where
  S_hat : Mat d
  m_hat : Vc d
  a_ret : Option (Coef × Coef)

/-- A full `cv_moments` call: the returned value (or the propagated error)
together with the final contents of the caller's arrays `Q_tilde` and
`r_tilde`. -/
structure CvCall (d : ℕ) where
  res : Res (CvOut d)
  Q_tilde_final : Mat d
  r_tilde_final : Vc d

/-- Embedding of `cv_moments` (source lines 144-293) for 2-D sample input.
The floating-point transcendentals are explicit parameters: `fexp` embeds
`np.exp`, `chol_ldet` the libm value of `np.sum(np.log(np.diag(cho_tilde)))`
(source line 223, used only when `ldet_Q_tilde` is absent), and `log2pi` the
constant `np.log(2*np.pi)`.  The composite of `cho_factor(Q_tilde)` (which
with its default `overwrite_a=False` works on a copy) followed by
`invert_normal_params(cho_tilde, r_tilde, cho_form=True)` at source lines
214-219 is modelled by its mathematical effect: a "not positive definite"
error when `cholOkB Q_tilde` fails, and otherwise the moment parameters
`(symU Q_tilde)⁻¹` and `(symU Q_tilde)⁻¹ *ᵥ r_tilde`, computed on copies
(the default `out_A=None`/`out_b=None` make `invert_normal_params` copy its
inputs).  Consequently the fields `Q_tilde_final` and `r_tilde_final`, the
contents of the caller's arrays after the call, equal the inputs on every
path — unlike `samp`, which the source does overwrite in the fallback
branch. -/
def cv_moments {n d : ℕ} (fexp : ℚ → ℚ) (chol_ldet log2pi : ℚ)
    (samp : Rect n d) (lp : Fin n → ℚ) (Q_tilde : Mat d) (r_tilde : Vc d)
    (S_tilde : Option (Mat d)) (m_tilde : Option (Vc d))
    (ldet_Q_tilde : Option ℚ) (multiple_cv : Bool)
    (regulate_a max_a : Option ℚ) (ret_a : Bool) : CvCall d :=
  let opt : Opt :=
    { multiple_cv := multiple_cv, regulate_a := regulate_a, max_a := max_a }
  let res : Res (CvOut d) :=
    if (S_tilde.isNone || m_tilde.isNone || ldet_Q_tilde.isNone)
        && !(cholOkB Q_tilde) then
      .err .notPosDef
    else
      let St := (tilde_moments Q_tilde r_tilde S_tilde m_tilde).1
      let mt := (tilde_moments Q_tilde r_tilde S_tilde m_tilde).2
      let pr := prVec fexp chol_ldet log2pi samp lp Q_tilde mt ldet_Q_tilde
      if ∀ i, pr i < npEps then
        let m_hat : Vc d := fun j => (∑ i, samp i j) / (n : ℚ)
        let S_hat : Mat d :=
          Matrix.of fun a b => ∑ i, (samp i a - m_hat a) * (samp i b - m_hat b)
        .ok { S_hat := S_hat, m_hat := m_hat,
              a_ret := if ret_a then some (.scalarZero, .scalarZero) else none }
      else
        let hc : Rect n d := fun i j => samp i j * pr i - mt j
        match cv_estim samp hc true opt 0 with
        | .err e => .err e
        | .ok (m_hat, a_m) =>
            let dev_tilde : Rect n d := fun i j => samp i j - mt j
            let hc2 : Fin n → Fin (calc_d2 d) → ℚ := fun i p =>
              auto_outer dev_tilde i p * pr i - ravel_triu St.transpose p
            let dev : Rect n d := fun i j => samp i j - m_hat j
            match cv_estim (auto_outer dev) hc2 false opt 0 with
            | .err e => .err e
            | .ok (d2vec, a_S) =>
                .ok { S_hat := unravel_triu d2vec, m_hat := m_hat,
                      a_ret := if ret_a then some (a_S, a_m) else none }
  { res := res, Q_tilde_final := Q_tilde, r_tilde_final := r_tilde }

/-- Embedding of the 1-D input branch of `cv_moments` (source lines
203-206): a length-`n` vector `samp` is reshaped to an `n x 1` matrix
(`samp[:, np.newaxis]`) and processing continues with `d = 1`. -/
def cv_moments_1d {n : ℕ} (fexp : ℚ → ℚ) (chol_ldet log2pi : ℚ)
    (samp : Fin n → ℚ) (lp : Fin n → ℚ) (Q_tilde : Mat 1) (r_tilde : Vc 1)
    (S_tilde : Option (Mat 1)) (m_tilde : Option (Vc 1))
    (ldet_Q_tilde : Option ℚ) (multiple_cv : Bool)
    (regulate_a max_a : Option ℚ) (ret_a : Bool) : CvCall 1 :=
  cv_moments fexp chol_ldet log2pi (fun i (_ : Fin 1) => samp i) lp
    Q_tilde r_tilde S_tilde m_tilde ldet_Q_tilde multiple_cv
    regulate_a max_a ret_a

/-- Value classes of an IEEE double-precision result. -/
inductive Flt where
  | fin (q : ℚ)
  | pinf
  | ninf
  | nan
deriving DecidableEq

/-- IEEE division of finite doubles (numpy's elementwise `/` raises no
error): division by zero yields a signed infinity, or NaN for `0/0`. -/
def npDiv (x y : ℚ) : Flt :=
  if y = 0 then (if x = 0 then .nan else if 0 < x then .pinf else .ninf)
  else .fin (x / y)

/-- Embedding of source lines 123-126 (the single-CV branch of `_cv_estim`,
with the `ddof_f = 0` used by both call sites) for one target dimension
`j`, with IEEE division semantics: the coefficient
`a[j] = (cov_fh[j] * n) / (var_h[j] * (n-1))` where
`cov_fh[j] = sum_i fc[i,j] * hc[i,j]`, `var_h[j] = sum_i hc[i,j]^2` and
`fc` centers `f` by its column means; the source applies the division with
no guard on the denominator. -/
def singleCvA {n k : ℕ} (f hc : Fin n → Fin k → ℚ) (j : Fin k) : Flt :=
  npDiv ((∑ i, (f i j - (∑ i2, f i2 j) / (n : ℚ)) * hc i j) * (n : ℚ))
        ((∑ i, hc i j ^ 2) * ((n : ℚ) - 1))

/-- Definition following the spec's words (for comparison only, not taken
from the code): the biased, n-normalized empirical covariance of the
samples — the sum of centered outer products divided by `n`. -/
def empiricalCovN {n d : ℕ} (samp : Rect n d) : Mat d :=
  Matrix.of fun a b =>
    (∑ i, (samp i a - (∑ i2, samp i2 a) / (n : ℚ))
      * (samp i b - (∑ i2, samp i2 b) / (n : ℚ))) / (n : ℚ)

/-! ## Supporting lemmas -/

theorem qdet_eq_det : ∀ {k : ℕ} (A : Matrix (Fin k) (Fin k) ℚ), qdet A = A.det
  | 0, A => by rw [qdet, Matrix.det_fin_zero]
  | k + 1, A => by
      rw [Matrix.det_succ_row_zero, qdet]
      exact Finset.sum_congr rfl fun j _ => by rw [qdet_eq_det]

/-- `cholOkB` holds exactly when all leading principal minors of the
symmetrized matrix are positive. -/
theorem cholOkB_true_iff {d : ℕ} (A : Mat d) :
    cholOkB A = true ↔ ∀ k : Fin d, 0 < qdet (leadSub (symU A) k) := by
  simp [cholOkB, List.all_eq_true, List.mem_finRange]

/-- `cholOkB` fails exactly when some leading principal minor of the
symmetrized matrix is not positive. -/
theorem cholOkB_false_iff {d : ℕ} (A : Mat d) :
    cholOkB A = false ↔ ∃ k : Fin d, ¬ 0 < qdet (leadSub (symU A) k) := by
  rw [← Bool.not_eq_true, cholOkB_true_iff]
  push_neg
  exact Iff.rfl

/-- The executable inverse agrees with Mathlib's matrix inverse. -/
theorem qInv_eq_inv {d : ℕ} (A : Mat d) : qInv A = A⁻¹ := by
  rw [qInv, qdet_eq_det, Matrix.inv_def, Ring.inverse_eq_inv]

theorem calc_d2_eq (d : ℕ) : calc_d2 d = d * (d + 1) / 2 := by
  have hs : ∀ m : ℕ, m >>> 1 = m / 2 := fun m => by
    rw [Nat.shiftRight_eq_div_pow]
  rw [calc_d2]
  rcases Nat.even_or_odd d with ⟨k, hk⟩ | ⟨k, hk⟩
  · have h2 : d % 2 = 0 := by omega
    rw [if_pos h2, hs]
    have hd : d / 2 * 2 = d := by omega
    have h3 : d * (d + 1) = 2 * (d / 2 * (d + 1)) := by
      calc d * (d + 1) = d / 2 * 2 * (d + 1) := by rw [hd]
        _ = 2 * (d / 2 * (d + 1)) := by ring
    rw [h3, Nat.mul_div_cancel_left _ (by norm_num)]
  · have h2 : ¬ d % 2 = 0 := by omega
    rw [if_neg h2, hs]
    have hd : (d + 1) / 2 * 2 = d + 1 := by omega
    have h3 : d * (d + 1) = 2 * ((d + 1) / 2 * d) := by
      calc d * (d + 1) = (d + 1) / 2 * 2 * d := by rw [hd]; ring
        _ = 2 * ((d + 1) / 2 * d) := by ring
    rw [h3, Nat.mul_div_cancel_left _ (by norm_num)]

theorem triuPairs_length : ∀ d : ℕ, (triuPairs d).length = d * (d + 1) / 2
  | 0 => rfl
  | d + 1 => by
      have ih := triuPairs_length d
      rw [triuPairs, List.length_append, List.length_map, List.length_range, ih]
      obtain ⟨m, hm⟩ := Nat.even_mul_succ_self d
      have hdiv : d * (d + 1) / 2 = m := by omega
      have hexp : (d + 1) * (d + 1 + 1) = d * (d + 1) + 2 * (d + 1) := by ring
      have h3 : (d + 1) * (d + 1 + 1) = 2 * (m + (d + 1)) := by omega
      rw [hdiv, h3, Nat.mul_div_cancel_left _ (by norm_num)]

/-- Mirroring the upper triangle into the lower one yields an exactly
symmetric matrix, whatever the input. -/
theorem copy_triu_to_tril_symm {d : ℕ} (A : Mat d) (i j : Fin d) :
    copy_triu_to_tril A i j = copy_triu_to_tril A j i := by
  rcases le_or_lt i j with h | h
  · rcases le_or_lt j i with h' | h'
    · have hij : i = j := le_antisymm h h'
      subst hij; rfl
    · simp [copy_triu_to_tril, h, not_le.mpr h']
  · simp [copy_triu_to_tril, h.le, not_le.mpr h]

/-- A principal submatrix (along an injective index map) of a positive
definite real matrix is positive definite. -/
theorem posDef_submatrix_of_injective {k d : ℕ} {M : Matrix (Fin d) (Fin d) ℝ}
    (hM : M.PosDef) (e : Fin k → Fin d) (he : Function.Injective e) :
    (M.submatrix e e).PosDef := by
  constructor
  · rw [Matrix.IsHermitian, Matrix.conjTranspose_submatrix, hM.1]
  · intro x hx
    have hval : ∀ (a : Fin d) (g : Fin d → ℝ),
        (∑ i, if e i = a then x i else 0) * g a
          = ∑ i, if e i = a then x i * g a else 0 := by
      intro a g
      rw [Finset.sum_mul]
      exact Finset.sum_congr rfl fun i _ => by rw [ite_mul, zero_mul]
    set y : Fin d → ℝ := fun a => ∑ i, if e i = a then x i else 0 with hy
    have hcollapse : ∀ g : Fin d → ℝ, (∑ a, y a * g a) = ∑ i, x i * g (e i) := by
      intro g
      calc (∑ a, y a * g a) = ∑ a, ∑ i, if e i = a then x i * g a else 0 :=
            Finset.sum_congr rfl fun a _ => hval a g
        _ = ∑ i, ∑ a, if e i = a then x i * g a else 0 := Finset.sum_comm
        _ = ∑ i, x i * g (e i) := Finset.sum_congr rfl fun i _ => by
              rw [Finset.sum_ite_eq]
              simp
    have hMy : ∀ a, (M *ᵥ y) a = ∑ j, M a (e j) * x j := by
      intro a
      show (fun b => M a b) ⬝ᵥ y = _
      rw [dotProduct]
      calc (∑ b, M a b * y b) = ∑ b, y b * M a b :=
            Finset.sum_congr rfl fun b _ => mul_comm _ _
        _ = ∑ j, x j * M a (e j) := hcollapse fun b => M a b
        _ = ∑ j, M a (e j) * x j := Finset.sum_congr rfl fun j _ => mul_comm _ _
    have hyi : ∀ i, y (e i) = x i := by
      intro i
      rw [hy]
      simp only
      rw [Finset.sum_eq_single i]
      · simp
      · intro j _ hji
        have : e j ≠ e i := fun h => hji (he h)
        simp [this]
      · simp
    have hy0 : y ≠ 0 := by
      obtain ⟨i, hi⟩ := Function.ne_iff.mp hx
      intro h0
      exact hi (by rw [← hyi i, h0]; rfl)
    have hpos := hM.2 y hy0
    have hkey : star y ⬝ᵥ M *ᵥ y = star x ⬝ᵥ (M.submatrix e e) *ᵥ x := by
      rw [star_trivial, star_trivial, dotProduct, dotProduct]
      calc (∑ a, y a * (M *ᵥ y) a) = ∑ i, x i * (M *ᵥ y) (e i) := hcollapse _
        _ = ∑ i, x i * ((M.submatrix e e) *ᵥ x) i := by
            refine Finset.sum_congr rfl fun i _ => ?_
            rw [hMy (e i)]
            rfl
    rwa [hkey] at hpos

/-- Determinants commute with the entrywise cast of a rational matrix to a
real matrix. -/
theorem det_map_rat {k : ℕ} (A : Matrix (Fin k) (Fin k) ℚ) :
    (A.map fun q => (q : ℝ)).det = (A.det : ℝ) := by
  have h := RingHom.map_det (Rat.castHom ℝ) A
  rw [RingHom.mapMatrix_apply] at h
  exact h.symm

/-- A rational matrix whose real cast is positive definite is symmetric. -/
theorem sym_of_real_posDef {d : ℕ} {S : Mat d}
    (hS : (S.map fun q => (q : ℝ)).PosDef) : ∀ i j : Fin d, S i j = S j i := by
  intro i j
  have h := hS.1.apply j i
  rw [star_trivial, Matrix.map_apply, Matrix.map_apply] at h
  exact_mod_cast h

/-- A symmetric matrix equals its upper-triangle symmetrization. -/
theorem symU_eq_self {d : ℕ} {S : Mat d} (hsym : ∀ i j : Fin d, S i j = S j i) :
    symU S = S := by
  ext i j
  rw [symU, Matrix.of_apply]
  rcases le_or_lt i j with h | h
  · rw [if_pos h]
  · rw [if_neg (not_le.mpr h), hsym]

/-- The Cholesky factorization succeeds on every rational matrix whose real
cast is positive definite: all leading principal minors are positive. -/
theorem cholOkB_of_posDef {d : ℕ} {S : Mat d}
    (hS : (S.map fun q => (q : ℝ)).PosDef) : cholOkB S = true := by
  rw [cholOkB_true_iff]
  intro k
  rw [symU_eq_self (sym_of_real_posDef hS), qdet_eq_det]
  have hsub : ((S.map fun q => (q : ℝ)).submatrix (Fin.castLE k.isLt)
      (Fin.castLE k.isLt)).PosDef :=
    posDef_submatrix_of_injective hS _ (Fin.strictMono_castLE _).injective
  have hdet := hsub.det_pos
  rw [Matrix.submatrix_map, det_map_rat] at hdet
  exact_mod_cast hdet

/-- A successful `invert_normal_params` call on a symmetric matrix returns
the matrix inverse and the solved vector, leaving the inputs unchanged in
the default allocation mode. -/
theorem invert_normal_params_ok {d : ℕ} {S : Mat d} (m : Vc d)
    (hsym : ∀ i j : Fin d, S i j = S j i) (hchol : cholOkB S = true) :
    invert_normal_params S (some m) .alloc .alloc =
      .ok { out_A := qInv S, out_b := some (qInv S *ᵥ m),
            A_final := S, b_final := some m } := by
  have hsymU : symU S = S := symU_eq_self hsym
  have hT : Sᵀ = S := by
    ext a b
    exact hsym b a
  have hinvT : S⁻¹ᵀ = S⁻¹ := by rw [Matrix.transpose_nonsing_inv, hT]
  have hinvsym : ∀ i j : Fin d, qInv S i j = qInv S j i := by
    intro i j
    rw [qInv_eq_inv]
    have h2 := congrFun (congrFun hinvT j) i
    rw [Matrix.transpose_apply] at h2
    exact h2
  have houtA : copy_triu_to_tril
      (Matrix.of fun i j => if i ≤ j then qInv S i j else S i j) = qInv S := by
    ext i j
    rw [copy_triu_to_tril, Matrix.of_apply]
    rcases le_or_lt i j with h | h
    · rw [if_pos h, Matrix.of_apply, if_pos h]
    · rw [if_neg (not_le.mpr h), Matrix.of_apply, if_pos h.le, hinvsym]
  simp only [invert_normal_params, hchol, if_true, hsymU, Option.map_some']
  rw [houtA]
  rfl

/-- In single-CV mode a truthy `regulate_a` option makes `_cv_estim` reach
`a *= regulate_a`, where `regulate_a` is an unbound name: `NameError`. -/
theorem cv_estim_single_regulate_nameError {n k : ℕ}
    (f hc : Fin n → Fin k → ℚ) (div : Bool) (opt : Opt) (ddof : ℕ)
    (hm : opt.multiple_cv = false) (hreg : truthy opt.regulate_a = true) :
    cv_estim f hc div opt ddof = .err .nameError := by
  rw [cv_estim]
  simp [hm, hreg]

/-- In single-CV mode, with `regulate_a` falsy and `max_a` truthy,
`_cv_estim` reaches `np.clip(a, -max_a, max_a, out=a)`, where `max_a` is an
unbound name: `NameError`. -/
theorem cv_estim_single_max_nameError {n k : ℕ}
    (f hc : Fin n → Fin k → ℚ) (div : Bool) (opt : Opt) (ddof : ℕ)
    (hm : opt.multiple_cv = false) (hreg : truthy opt.regulate_a = false)
    (hmax : truthy opt.max_a = true) :
    cv_estim f hc div opt ddof = .err .nameError := by
  rw [cv_estim]
  simp [hm, hreg, hmax]

/-! ## Claim theorems -/

/-- C1: for every matrix `S` that is symmetric positive definite (as a real
matrix) and every mean vector `m`, `invert_normal_params (S, m)` succeeds
with some natural parameters `(Q, r)`, and applying `invert_normal_params`
to `(Q, r)` returns exactly the original pair `(S, m)`.  In this exact
rational embedding the round trip is an identity, which in particular is
within any floating-point tolerance. -/
theorem invert_normal_params_roundtrip {d : ℕ} (S : Mat d) (m : Vc d)
    (hS : (S.map fun q => (q : ℝ)).PosDef) :
    ∃ Q : Mat d, ∃ r : Vc d,
      invert_normal_params S (some m) .alloc .alloc =
        .ok { out_A := Q, out_b := some r, A_final := S, b_final := some m } ∧
      invert_normal_params Q (some r) .alloc .alloc =
        .ok { out_A := S, out_b := some m, A_final := Q, b_final := some r } := by
  have hsym := sym_of_real_posDef hS
  have hdetR : (0 : ℝ) < (S.det : ℝ) := by
    have := hS.det_pos
    rwa [det_map_rat] at this
  have hdet : IsUnit S.det := by
    have : S.det ≠ 0 := by exact_mod_cast hdetR.ne'
    exact this.isUnit
  have hmapinv : ((S.map fun q => (q : ℝ)))⁻¹ = (qInv S).map fun q => (q : ℝ) := by
    rw [qInv_eq_inv]
    have h1 : ((Rat.castHom ℝ).mapMatrix S) * ((Rat.castHom ℝ).mapMatrix S⁻¹) = 1 := by
      rw [← RingHom.map_mul, Matrix.mul_nonsing_inv S hdet, RingHom.map_one]
    rw [RingHom.mapMatrix_apply, RingHom.mapMatrix_apply] at h1
    exact Matrix.inv_eq_right_inv h1
  have hinvPD : ((qInv S).map fun q => (q : ℝ)).PosDef := by
    rw [← hmapinv]
    exact hS.inv
  have hsym2 := sym_of_real_posDef hinvPD
  have hchol2 := cholOkB_of_posDef hinvPD
  refine ⟨qInv S, qInv S *ᵥ m,
    invert_normal_params_ok m hsym (cholOkB_of_posDef hS), ?_⟩
  rw [invert_normal_params_ok (qInv S *ᵥ m) hsym2 hchol2]
  have hback : qInv (qInv S) = S := by
    rw [qInv_eq_inv, qInv_eq_inv, Matrix.nonsing_inv_nonsing_inv S hdet]
  have hvec : qInv (qInv S) *ᵥ (qInv S *ᵥ m) = m := by
    rw [hback, qInv_eq_inv, Matrix.mulVec_mulVec, Matrix.mul_nonsing_inv S hdet,
      Matrix.one_mulVec]
  rw [hvec, hback]

/-- Witness for C1 at the concrete input `S = [[4]]`, `m = [2]`. -/
theorem invert_normal_params_roundtrip_witness :
    ∃ Q : Mat 1, ∃ r : Vc 1,
      invert_normal_params (Matrix.of ![![(4 : ℚ)]]) (some ![2]) .alloc .alloc =
        .ok { out_A := Q, out_b := some r,
              A_final := Matrix.of ![![(4 : ℚ)]], b_final := some ![2] } ∧
      invert_normal_params Q (some r) .alloc .alloc =
        .ok { out_A := Matrix.of ![![(4 : ℚ)]], out_b := some ![2],
              A_final := Q, b_final := some r } := by
  refine invert_normal_params_roundtrip _ _ ⟨?_, ?_⟩
  · ext i j
    fin_cases i
    fin_cases j
    simp [Matrix.conjTranspose_apply]
  · intro x hx
    have hx0 : x 0 ≠ 0 := by
      intro h0
      apply hx
      funext i
      fin_cases i
      exact h0
    have hval : star x ⬝ᵥ ((Matrix.of ![![(4 : ℚ)]]).map fun q => (q : ℝ)) *ᵥ x
        = 4 * (x 0 * x 0) := by
      simp [dotProduct, Matrix.mulVec, Fin.sum_univ_one]
      ring
    rw [hval]
    exact mul_pos (by norm_num) (mul_self_pos.mpr hx0)

/-- C7: for every successful call, the returned matrix `out_A` is exactly
symmetric (`out_A i j = out_A j i` for all `i`, `j`), because the upper
triangle produced by `dpotri` is explicitly mirrored into the lower triangle
(`copy_triu_to_tril`) before returning. -/
theorem invert_normal_params_out_A_symm {d : ℕ} (A : Mat d) (b : Option (Vc d))
    (oA oB : OutMode) (h : cholOkB A = true) :
    ∃ r : InvOut d, invert_normal_params A b oA oB = .ok r ∧
      ∀ i j, r.out_A i j = r.out_A j i := by
  rw [invert_normal_params, if_pos h]
  exact ⟨_, rfl, fun i j => copy_triu_to_tril_symm _ i j⟩

/-- Witness for C7 at the concrete input `A = [[4]]`, `b = [2]`. -/
theorem invert_normal_params_out_A_symm_witness :
    ∃ r : InvOut 1,
      invert_normal_params (Matrix.of ![![(4 : ℚ)]]) (some ![2]) .alloc .alloc = .ok r ∧
      ∀ i j, r.out_A i j = r.out_A j i :=
  invert_normal_params_out_A_symm _ _ _ _ <| (cholOkB_true_iff _).mpr <| by
    intro k
    fin_cases k
    norm_num [qdet, leadSub, symU]

/-- C2 amended: when every importance ratio is below machine epsilon (and
the call reached the ratio computation), `cv_moments` raises no error and
falls back to the plain empirical mean together with the UNNORMALIZED sum
of centered outer products — the code never divides the scatter matrix by
`n` — and returns the plain scalar `0` for both coefficients when `ret_a`
is set. -/
theorem cv_moments_degenerate_fallback {n d : ℕ} (fexp : ℚ → ℚ)
    (chol_ldet log2pi : ℚ) (samp : Rect n d) (lp : Fin n → ℚ)
    (Q_tilde : Mat d) (r_tilde : Vc d) (S_tilde : Option (Mat d))
    (m_tilde : Option (Vc d)) (ldet_Q_tilde : Option ℚ) (multiple_cv : Bool)
    (regulate_a max_a : Option ℚ) (ret_a : Bool)
    (hgate : ((S_tilde.isNone || m_tilde.isNone || ldet_Q_tilde.isNone)
        && !(cholOkB Q_tilde)) = false)
    (hpr : ∀ i, prVec fexp chol_ldet log2pi samp lp Q_tilde
        (tilde_moments Q_tilde r_tilde S_tilde m_tilde).2 ldet_Q_tilde i
          < npEps) :
    (cv_moments fexp chol_ldet log2pi samp lp Q_tilde r_tilde S_tilde
        m_tilde ldet_Q_tilde multiple_cv regulate_a max_a ret_a).res
      = .ok { S_hat := Matrix.of fun a b => ∑ i,
                (samp i a - (∑ i2, samp i2 a) / (n : ℚ))
                  * (samp i b - (∑ i2, samp i2 b) / (n : ℚ)),
              m_hat := fun j => (∑ i, samp i j) / (n : ℚ),
              a_ret := if ret_a then some (.scalarZero, .scalarZero)
                else none } := by
  simp only [cv_moments, hgate]
  rw [if_neg Bool.false_ne_true, if_pos hpr]

/-- Witness for C2 (amended) at samples `[[0],[2]]` with every ratio
underflowing (`fexp` constantly zero): the fallback mean is `1`. -/
theorem cv_moments_degenerate_fallback_witness :
    ∃ out : CvOut 1,
      (cv_moments (n := 2) (fun _ => 0) 0 0 ![![0], ![2]] ![0, 0]
          (Matrix.of ![![(1 : ℚ)]]) ![0] (some (Matrix.of ![![(1 : ℚ)]]))
          (some ![0]) (some 0) true none none true).res = .ok out
      ∧ out.m_hat 0 = 1 := by
  refine ⟨_, cv_moments_degenerate_fallback _ _ _ _ _ _ _ _ _ _ _ _ _ _
    (by simp) (fun i => by norm_num [prVec, npEps]), ?_⟩
  show (∑ i : Fin 2, ![![(0 : ℚ)], ![2]] i 0) / ((2 : ℕ) : ℚ) = 1
  norm_num [Fin.sum_univ_two]

/-- C2 counterexample: at samples `[[0],[2]]` with every importance ratio
underflowing, the code returns the scatter-matrix entry `2`, whereas the
biased n-normalized empirical covariance entry demanded by the claim is
`1`. -/
theorem cv_moments_fallback_not_n_normalized :
    ∃ out : CvOut 1,
      (cv_moments (n := 2) (fun _ => 0) 0 0 ![![0], ![2]] ![0, 0]
          (Matrix.of ![![(1 : ℚ)]]) ![0] (some (Matrix.of ![![(1 : ℚ)]]))
          (some ![0]) (some 0) true none none true).res = .ok out
      ∧ out.S_hat 0 0 = 2
      ∧ empiricalCovN (n := 2) (d := 1) ![![0], ![2]] 0 0 = 1
      ∧ out.S_hat 0 0 ≠ empiricalCovN (n := 2) (d := 1) ![![0], ![2]] 0 0 := by
  have hS : (Matrix.of fun a b => ∑ i : Fin 2,
      (![![(0 : ℚ)], ![2]] i a - (∑ i2 : Fin 2, ![![(0 : ℚ)], ![2]] i2 a)
          / ((2 : ℕ) : ℚ))
        * (![![(0 : ℚ)], ![2]] i b - (∑ i2 : Fin 2, ![![(0 : ℚ)], ![2]] i2 b)
          / ((2 : ℕ) : ℚ))) 0 0 = 2 := by
    norm_num [Fin.sum_univ_two]
  have hC : empiricalCovN (n := 2) (d := 1) ![![0], ![2]] 0 0 = 1 := by
    norm_num [empiricalCovN, Fin.sum_univ_two]
  refine ⟨{ S_hat := Matrix.of fun a b => ∑ i : Fin 2,
              (![![(0 : ℚ)], ![2]] i a - (∑ i2 : Fin 2, ![![(0 : ℚ)], ![2]] i2 a)
                  / ((2 : ℕ) : ℚ))
                * (![![(0 : ℚ)], ![2]] i b
                  - (∑ i2 : Fin 2, ![![(0 : ℚ)], ![2]] i2 b) / ((2 : ℕ) : ℚ)),
            m_hat := fun j => (∑ i : Fin 2, ![![(0 : ℚ)], ![2]] i j)
              / ((2 : ℕ) : ℚ),
            a_ret := some (.scalarZero, .scalarZero) }, ?_, hS, hC, ?_⟩
  · simp only [cv_moments, Option.isNone_some, Bool.false_or, Bool.false_and]
    rw [if_neg Bool.false_ne_true, if_pos ?hpr]
    case hpr =>
      intro i
      norm_num [prVec, npEps]
    rfl
  · dsimp only
    rw [hS, hC]
    norm_num

/-- C3 counterexample: at `n = 2`, `f = [[0],[1]]`, `hc = [[0],[0]]`, the
centered control statistic has variance exactly zero, yet the code performs
the division: the coefficient is the IEEE `0/0` result NaN, not `0`. -/
theorem singleCvA_zero_var_cex :
    singleCvA (n := 2) (k := 1) ![![0], ![1]] ![![0], ![0]] 0 = .nan ∧
    singleCvA (n := 2) (k := 1) ![![0], ![1]] ![![0], ![0]] 0 ≠ .fin 0 := by
  have h : singleCvA (n := 2) (k := 1) ![![0], ![1]] ![![0], ![0]] 0 = .nan := by
    rw [singleCvA]
    norm_num [Fin.sum_univ_two, npDiv]
  refine ⟨h, ?_⟩
  rw [h]
  intro hcon
  exact Flt.noConfusion hcon

/-- C3 amended: the single-CV branch has no zero-variance guard.  For a
dimension whose control variance `var_h[j]` is exactly zero (so that
`cov_fh[j]` is forced to zero as well) the unguarded division is performed
and the coefficient is the IEEE `0/0` result NaN — not `0`; for the other
dimensions the coefficient equals `cov_fh[j] * n / (var_h[j] * (n-1))`. -/
theorem singleCvA_no_guard {n k : ℕ} (f hc : Fin n → Fin k → ℚ) (j : Fin k)
    (hn : 2 ≤ n) :
    ((∑ i, hc i j ^ 2) = 0 → singleCvA f hc j = .nan) ∧
    ((∑ i, hc i j ^ 2) ≠ 0 →
      singleCvA f hc j =
        .fin (((∑ i, (f i j - (∑ i2, f i2 j) / (n : ℚ)) * hc i j) * (n : ℚ))
          / ((∑ i, hc i j ^ 2) * ((n : ℚ) - 1)))) := by
  constructor
  · intro hvar
    have hzero : ∀ i : Fin n, hc i j = 0 := by
      intro i
      have hall := (Finset.sum_eq_zero_iff_of_nonneg
        (fun i _ => sq_nonneg (hc i j))).mp hvar i (Finset.mem_univ i)
      exact pow_eq_zero_iff (n := 2) (by norm_num) |>.mp hall
    rw [singleCvA]
    have hcov : (∑ i, (f i j - (∑ i2, f i2 j) / (n : ℚ)) * hc i j) = 0 :=
      Finset.sum_eq_zero fun i _ => by rw [hzero i, mul_zero]
    rw [hcov, hvar, npDiv, zero_mul, zero_mul, if_pos rfl, if_pos rfl]
  · intro hvar
    have hden : (∑ i, hc i j ^ 2) * ((n : ℚ) - 1) ≠ 0 := by
      refine mul_ne_zero hvar ?_
      have : (2 : ℚ) ≤ (n : ℚ) := by exact_mod_cast hn
      linarith
    rw [singleCvA, npDiv, if_neg hden]

/-- Witness for C3 (amended): the NaN case at `hc`-column `[0,0]` and the
generic case at `hc`-column `[1,3]` with `f`-column `[0,1]`, `n = 2`. -/
theorem singleCvA_no_guard_witness :
    (2 ≤ 2) ∧
    singleCvA (n := 2) (k := 1) ![![0], ![1]] ![![0], ![0]] 0 = .nan ∧
    singleCvA (n := 2) (k := 1) ![![0], ![1]] ![![1], ![3]] 0 = .fin (1 / 5) := by
  refine ⟨le_refl 2, ?_, ?_⟩
  · exact (singleCvA_no_guard (n := 2) (k := 1) ![![0], ![1]] ![![0], ![0]] 0
      (le_refl 2)).1 (by norm_num [Fin.sum_univ_two])
  · have h := (singleCvA_no_guard (n := 2) (k := 1) ![![0], ![1]] ![![1], ![3]] 0
      (le_refl 2)).2 (by norm_num [Fin.sum_univ_two])
    rw [h]
    norm_num [Fin.sum_univ_two]

/-- C4 (code evaluation at the failing input): with the finite clamp
`max_a = 1/10` — for which the claim prescribes clamping the returned
coefficients elementwise — `cv_moments` raises `NameError` instead, because
`max_a` is an unbound name inside `_cv_estim`. -/
theorem cv_moments_max_a_nameError :
    (cv_moments (n := 2) (d := 1) (fun _ => 1) 0 0 ![![0], ![2]] ![0, 0]
        (Matrix.of ![![(1 : ℚ)]]) ![0] (some (Matrix.of ![![(1 : ℚ)]]))
        (some ![0]) (some 0) false none (some (1 / 10)) true).res
      = .err .nameError := by
  have hguard : ¬ ∀ i : Fin 2,
      prVec (fun _ => (1 : ℚ)) 0 0 ![![0], ![2]] ![0, 0]
        (Matrix.of ![![(1 : ℚ)]]) ![0] (some 0) i < npEps := by
    intro h
    have h0 := h 0
    norm_num [prVec, npEps] at h0
  simp only [cv_moments, tilde_moments]
  rw [if_neg hguard]
  rw [cv_estim_single_max_nameError]
  · rfl
  · rfl
  · rfl
  · norm_num [truthy]

/-- C5 (code evaluation at the failing input): with the shrinkage multiplier
`regulate_a = 1/2` — a plain number, for which the claim prescribes
multiplying the coefficient — `cv_moments` raises `NameError` instead,
because `regulate_a` is an unbound name inside `_cv_estim`. -/
theorem cv_moments_regulate_a_nameError :
    (cv_moments (n := 2) (d := 1) (fun _ => 1) 0 0 ![![0], ![2]] ![0, 0]
        (Matrix.of ![![(1 : ℚ)]]) ![0] (some (Matrix.of ![![(1 : ℚ)]]))
        (some ![0]) (some 0) false (some (1 / 2)) none true).res
      = .err .nameError := by
  have hguard : ¬ ∀ i : Fin 2,
      prVec (fun _ => (1 : ℚ)) 0 0 ![![0], ![2]] ![0, 0]
        (Matrix.of ![![(1 : ℚ)]]) ![0] (some 0) i < npEps := by
    intro h
    have h0 := h 0
    norm_num [prVec, npEps] at h0
  simp only [cv_moments, tilde_moments]
  rw [if_neg hguard]
  rw [cv_estim_single_regulate_nameError]
  · rfl
  · rfl
  · norm_num [truthy]

/-- C6: when the Cholesky factorization of `A` fails (some leading
principal minor not positive, i.e. `A` not positive definite),
`invert_normal_params` raises the "not positive definite" error, which
propagates uncaught; and the same condition raised on the Cholesky
factorization of `Q_tilde` (performed whenever the tilted moment parameters
are not fully supplied, here with their `None` defaults) fails the whole
`cv_moments` call with the same error. -/
theorem not_posdef_error_propagates {n d : ℕ} (A : Mat d) (b : Option (Vc d))
    (oA oB : OutMode) (fexp : ℚ → ℚ) (chol_ldet log2pi : ℚ)
    (samp : Rect n d) (lp : Fin n → ℚ) (r_tilde : Vc d)
    (multiple_cv : Bool) (regulate_a max_a : Option ℚ) (ret_a : Bool)
    (h : cholOkB A = false) :
    invert_normal_params A b oA oB = .err .notPosDef ∧
    (cv_moments fexp chol_ldet log2pi samp lp A r_tilde none none none
        multiple_cv regulate_a max_a ret_a).res = .err .notPosDef := by
  constructor
  · rw [invert_normal_params, h]
    rfl
  · simp only [cv_moments, h]
    rfl

/-- Witness for C6 at the concrete non-positive-definite input
`A = [[-1]]`. -/
theorem not_posdef_error_propagates_witness :
    invert_normal_params (Matrix.of ![![(-1 : ℚ)]]) (some ![1]) .alloc .alloc
        = .err .notPosDef ∧
    (cv_moments (n := 1) (fun q => q) 0 0 (fun _ _ => 0) (fun _ => 0)
        (Matrix.of ![![(-1 : ℚ)]]) ![1] none none none true none none
        false).res = .err .notPosDef := by
  have h : cholOkB (Matrix.of ![![(-1 : ℚ)]]) = false := by
    rw [cholOkB_false_iff]
    refine ⟨0, ?_⟩
    norm_num [qdet, leadSub, symU, Fin.sum_univ_one]
  exact not_posdef_error_propagates _ _ _ _ _ _ _ _ _ _ _ _ _ _ h

/-- C8: for every `d` (in particular every positive `d`), the packed
upper-triangle length computed by `cv_moments` through the parity branch on
integer shifts equals exactly `d(d+1)/2`; `d = 3` gives `6` and `d = 4`
gives `10`; and the packed index list (hence the packed intermediate
vector, whose index type is `Fin (calc_d2 d)`) has exactly that many
entries. -/
theorem calc_d2_correct (d : ℕ) :
    calc_d2 d = d * (d + 1) / 2 ∧ (triuPairs d).length = calc_d2 d ∧
    calc_d2 3 = 6 ∧ calc_d2 4 = 10 :=
  ⟨calc_d2_eq d, by rw [triuPairs_length, calc_d2_eq], by decide, by decide⟩

/-- C9: a one-dimensional samples vector is treated as an `n x 1` matrix:
`cv_moments` on the vector is the same call as `cv_moments` on the reshaped
`n x 1` array, whose outputs at `d = 1` are a `1 x 1` covariance `S_hat`
and a length-1 mean `m_hat`. -/
theorem cv_moments_1d_reshape {n : ℕ} (fexp : ℚ → ℚ) (chol_ldet log2pi : ℚ)
    (samp : Fin n → ℚ) (lp : Fin n → ℚ) (Q_tilde : Mat 1) (r_tilde : Vc 1)
    (S_tilde : Option (Mat 1)) (m_tilde : Option (Vc 1))
    (ldet_Q_tilde : Option ℚ) (multiple_cv : Bool)
    (regulate_a max_a : Option ℚ) (ret_a : Bool) :
    cv_moments_1d fexp chol_ldet log2pi samp lp Q_tilde r_tilde S_tilde
        m_tilde ldet_Q_tilde multiple_cv regulate_a max_a ret_a
      = cv_moments fexp chol_ldet log2pi (fun i (_ : Fin 1) => samp i) lp
        Q_tilde r_tilde S_tilde m_tilde ldet_Q_tilde multiple_cv
        regulate_a max_a ret_a :=
  rfl

/-- C10: whatever `cv_moments` does (returning a value or propagating an
error), the contents of the caller's `Q_tilde` and `r_tilde` arrays after
the call equal the inputs: `cho_factor` works on a copy (default
`overwrite_a=False`) and the internal `invert_normal_params` call uses the
allocate-new defaults, so `r_tilde` is copied before being solved in
place. -/
theorem cv_moments_frame {n d : ℕ} (fexp : ℚ → ℚ) (chol_ldet log2pi : ℚ)
    (samp : Rect n d) (lp : Fin n → ℚ) (Q_tilde : Mat d) (r_tilde : Vc d)
    (S_tilde : Option (Mat d)) (m_tilde : Option (Vc d))
    (ldet_Q_tilde : Option ℚ) (multiple_cv : Bool)
    (regulate_a max_a : Option ℚ) (ret_a : Bool) :
    (cv_moments fexp chol_ldet log2pi samp lp Q_tilde r_tilde S_tilde
        m_tilde ldet_Q_tilde multiple_cv regulate_a max_a ret_a).Q_tilde_final
      = Q_tilde ∧
    (cv_moments fexp chol_ldet log2pi samp lp Q_tilde r_tilde S_tilde
        m_tilde ldet_Q_tilde multiple_cv regulate_a max_a ret_a).r_tilde_final
      = r_tilde :=
  ⟨rfl, rfl⟩

end EpStan
